import Mathlib

/-!
# ellipsofit: the Drude–Lorentz permittivity model of `src/fit/ellipsomath.cpp`

Shallow embedding of the numeric core of `ellipsomath.cpp`.

## Number model

The source computes with `qreal` (an IEEE-754 double).  Here a *finite* `qreal` is an exact
rational number (every finite double is one), and the four arithmetic operations are exact:
rounding, overflow, underflow and the sign of zero are not modelled.  The one way the
source's formulas leave the finite numbers in exact arithmetic is a division whose divisor is
zero, where IEEE-754 yields `±Inf`
(non-zero dividend) or `NaN` (zero dividend).  A possibly non-finite `qreal` is therefore an
`Option qreal`: `some q` is the finite value `q`, `none` stands for "`±Inf` or `NaN`".
Every operation the source applies after a division (`einf - _`, `som += _`) keeps a non-finite
operand non-finite, which is what the `Option` monad does with `none`.

Equalities between expressions of the source carry over to the doubles up to rounding.
Statements that a value is finite, that a divisor is not zero or that a value has a sign are
statements of exact arithmetic: on doubles a product can underflow to `0` or overflow to
`Inf`, and such statements are marked "in exact arithmetic" below.
-/

namespace Ellipsofit

/-! ## Data model -/

/-- A finite `qreal` of the source, as an exact rational. -/
abbrev qreal : Type := ℚ

/-- Modelled from the spec: the header `ellipsomath.h` declaring the element type of
`Parameters::laurentians` is not under `src/`.  The source reads a term as
`k[LaurEK]`, `k[LaurFK]`, `k[LaurGK]`; the spec names the three coefficients resonance energy
`ek`, oscillator strength `fk` and broadening `gk`. -/
structure Laurentian where
  ek : qreal
  fk : qreal
  gk : qreal
  deriving DecidableEq, Repr

/-- Modelled from the spec: the header `ellipsomath.h` declaring `Parameters` is not under
`src/`.  The source reads the fields `einf`, `ep`, `g` and the indexable sequence
`laurentians`. -/
structure Parameters where
  einf : qreal
  ep : qreal
  g : qreal
  laurentians : List Laurentian
  deriving DecidableEq, Repr

/-! ## Arithmetic that can leave the finite numbers -/

/-- The quotient `a / b` of two finite values: finite unless the divisor is zero. -/
def qdiv (a b : qreal) : Option qreal :=
  if b = 0 then none else some (a / b)

/-- The sum `a + b` of two possibly non-finite values (the source's `som += x`). -/
def qadd (a b : Option qreal) : Option qreal := do
  let x ← a
  let y ← b
  return x + y

/-- The negation `-a` of a possibly non-finite value. -/
def qneg (a : Option qreal) : Option qreal := do
  let x ← a
  return -x

/-- The sum of a list of possibly non-finite values, the empty sum being `0`. -/
def qsum (l : List (Option qreal)) : Option qreal :=
  l.foldr qadd (some 0)

/-! ## MATHEMATIC - REAL (`ellipsomath.cpp` lines 22–43) -/

/-- Source `qreal mathRealDrud(qreal e, qreal einf, qreal ep, qreal g)`:
`return einf - (ep * ep) / (e * e + g * g);` -/
def mathRealDrud (e einf ep g : qreal) : Option qreal := do
  let q ← qdiv (ep * ep) (e * e + g * g)
  return einf - q

/-- Source `qreal mathRealLaurentian(qreal e, qreal ek, qreal fk, qreal gk)`:
`return (fk * quadEk * delta) / (delta * delta + gk * gk * quadE);` -/
def mathRealLaurentian (e ek fk gk : qreal) : Option qreal :=
  let quadE := e * e
  let quadEk := ek * ek
  let delta := quadEk - quadE
  qdiv (fk * quadEk * delta) (delta * delta + gk * gk * quadE)

/-- Source `qreal mathRealFun(qreal e, const Parameters &p)`: `som` starts at the Drude term and the
loop over `i = 0 .. p.laurentians.size() - 1` adds the `i`-th Lorentzian term to it. -/
def mathRealFun (e : qreal) (p : Parameters) : Option qreal :=
  p.laurentians.foldl
    (fun som t => qadd som (mathRealLaurentian e t.ek t.fk t.gk))
    (mathRealDrud e p.einf p.ep p.g)

/-! ## MATHEMATIC - IMAGINARY (`ellipsomath.cpp` lines 51–72) -/

/-- Source `qreal mathImagDrud(qreal e, qreal ep, qreal g)`:
`return (ep * ep * g * e) / (quadE * quadE + g * g * quadE);` -/
def mathImagDrud (e ep g : qreal) : Option qreal :=
  let quadE := e * e
  qdiv (ep * ep * g * e) (quadE * quadE + g * g * quadE)

/-- Source `qreal mathImagLaurentian(qreal e, qreal ek, qreal fk, qreal gk)`:
`return (fk * quadEk * gk * e) / (gk * gk * quadE + delta * delta);` -/
def mathImagLaurentian (e ek fk gk : qreal) : Option qreal :=
  let quadE := e * e
  let quadEk := ek * ek
  let delta := quadEk - quadE
  qdiv (fk * quadEk * gk * e) (gk * gk * quadE + delta * delta)

/-- Source `qreal mathImagFun(qreal e, const Parameters &p)`: same loop as `mathRealFun`, over the
imaginary terms. -/
def mathImagFun (e : qreal) (p : Parameters) : Option qreal :=
  p.laurentians.foldl
    (fun som t => qadd som (mathImagLaurentian e t.ek t.fk t.gk))
    (mathImagDrud e p.ep p.g)

/-- The divisor of `mathRealLaurentian`, `delta * delta + gk * gk * quadE`. -/
def realLaurentianDivisor (e ek gk : qreal) : qreal :=
  let quadE := e * e
  let quadEk := ek * ek
  let delta := quadEk - quadE
  delta * delta + gk * gk * quadE

/-- The divisor of `mathImagLaurentian`, `gk * gk * quadE + delta * delta`. -/
def imagLaurentianDivisor (e ek gk : qreal) : qreal :=
  let quadE := e * e
  let quadEk := ek * ek
  let delta := quadEk - quadE
  gk * gk * quadE + delta * delta

/-! ## MATHEMATIC - Reflectivity (`ellipsomath.cpp` lines 82–105) -/

/-- A `std::complex<qreal>`: real and imaginary part, each possibly non-finite. -/
structure Cplx where
  re : Option qreal
  im : Option qreal
  deriving DecidableEq, Repr

/-- Library `std::conj`: the real part is kept and the imaginary part negated. -/
def Cplx.conj (z : Cplx) : Cplx :=
  ⟨z.re, qneg z.im⟩

/-- The seven arguments of one call `thinfilm::simulate(cosTheta, lambda, polarization,
nIncident, nExit, layers, &ref)`, without the output pointer.  `Layer` stands for
`thinfilm::Layer`, declared in `thinfilm.h`, which is not under `src/`. -/
structure SimulateArgs (Layer : Type) where
  cosIncidence : qreal
  wavelength : Option qreal
  polarization : qreal
  incidentIndex : qreal
  exitIndex : Cplx
  layers : List Layer

/-- Source `qreal mathReflectivity(qreal e, const Parameters &p)`.

The external routines are injected: `simulate` is `thinfilm::simulate`, as the function from
its arguments to the value it stores through `&ref`; `csqrt` is `std::sqrt` on
`std::complex<qreal>`; `M_PI_4` is the constant of `<cmath>`.  The calls made to the simulator
are recorded: `calls` is the record on entry, and the result is the returned `ref` together
with the record on exit. -/
def mathReflectivity {Layer : Type} (simulate : SimulateArgs Layer → Option qreal)
    (csqrt : Cplx → Cplx) (M_PI_4 : qreal) (e : qreal) (p : Parameters)
    (calls : List (SimulateArgs Layer)) : Option qreal × List (SimulateArgs Layer) :=
  let epsilon1 := mathRealFun e p
  let epsilon2 := mathImagFun e p
  let epsilon : Cplx := ⟨epsilon1, epsilon2⟩
  let exit := csqrt epsilon
  let layers : List Layer := []
  let args : SimulateArgs Layer := ⟨1, qdiv 1240 e, M_PI_4, 1, exit.conj, layers⟩
  let ref := simulate args
  (ref, calls ++ [args])

/-- The divisor of `mathRealDrud`, `e * e + g * g`. -/
def realDrudDivisor (e g : qreal) : qreal :=
  e * e + g * g

/-- The divisor of `mathImagDrud`, `quadE * quadE + g * g * quadE`. -/
def imagDrudDivisor (e g : qreal) : qreal :=
  let quadE := e * e
  quadE * quadE + g * g * quadE

/-! ## GLOBALES & MACRO, GRAPHIC (`ellipsomath.cpp` lines 115–219)

The curve classes keep the parameter set `p` they were constructed with; the `QPen` they hand
to the base class `XYFunction` only styles the drawing and is left out. -/

/-- Source `bool XYEllipsoFun::domain(qreal x) const`:
`if (x < 0.1) return false; else return true;` -/
def XYEllipsoFun.domain (x : qreal) : Bool :=
  if x < 0.1 then false else true

/-- The outcome of reading a curve value `y(x)`: `p.laurentians[no]` has a defined result
only for an index in range (`0 <= no < size()`), and then the value is a possibly non-finite
`qreal`. -/
inductive YResult where
  | outOfRange : YResult
  | value (v : Option qreal) : YResult
  deriving DecidableEq, Repr

/-- The class `XYRealLaurentian`: the parameter set and the member `int no`. -/
structure XYRealLaurentian where
  p : Parameters
  no : Int
  deriving DecidableEq, Repr

/-- Source `XYRealLaurentian::XYRealLaurentian(const Parameters &parameters, const QPen &pen)`:
`: XYEllipsoFun(parameters, pen), no(0)`. -/
def XYRealLaurentian.new (parameters : Parameters) : XYRealLaurentian :=
  ⟨parameters, 0⟩

/-- Source `void XYRealLaurentian::setNo(int n)`: `no = n;` -/
def XYRealLaurentian.setNo (c : XYRealLaurentian) (n : Int) : XYRealLaurentian :=
  { c with no := n }

/-- Source `qreal XYRealLaurentian::y(qreal x) const`: `mathRealLaurentian` at the three
coefficients of `p.laurentians[no]`. -/
def XYRealLaurentian.y (c : XYRealLaurentian) (x : qreal) : YResult :=
  if 0 ≤ c.no then
    match c.p.laurentians[c.no.toNat]? with
    | some t => YResult.value (mathRealLaurentian x t.ek t.fk t.gk)
    | none => YResult.outOfRange
  else YResult.outOfRange

/-- The class `XYImagLaurentian`: the parameter set and the member `int no`. -/
structure XYImagLaurentian where
  p : Parameters
  no : Int
  deriving DecidableEq, Repr

/-- Source `XYImagLaurentian::XYImagLaurentian(const Parameters &parameters, const QPen &pen)`:
`: XYEllipsoFun(parameters, pen), no(0)`. -/
def XYImagLaurentian.new (parameters : Parameters) : XYImagLaurentian :=
  ⟨parameters, 0⟩

/-- Source `void XYImagLaurentian::setNo(int n)`: `no = n;` -/
def XYImagLaurentian.setNo (c : XYImagLaurentian) (n : Int) : XYImagLaurentian :=
  { c with no := n }

/-- Source `qreal XYImagLaurentian::y(qreal x) const`: `mathImagLaurentian` at the three
coefficients of `p.laurentians[no]`. -/
def XYImagLaurentian.y (c : XYImagLaurentian) (x : qreal) : YResult :=
  if 0 ≤ c.no then
    match c.p.laurentians[c.no.toNat]? with
    | some t => YResult.value (mathImagLaurentian x t.ek t.fk t.gk)
    | none => YResult.outOfRange
  else YResult.outOfRange

/-! ## The formulas as the specification words them -/

/-- Spec §4.1, `drudeReal(e, einf, ep, g) → einf − ep² / (e² + g²)`. -/
def drudeReal (e einf ep g : qreal) : Option qreal := do
  let q ← qdiv (ep ^ 2) (e ^ 2 + g ^ 2)
  return einf - q

/-- Spec §4.1, `drudeImag(e, ep, g) → ep²·g·e / (e⁴ + g²·e²)`. -/
def drudeImag (e ep g : qreal) : Option qreal :=
  qdiv (ep ^ 2 * g * e) (e ^ 4 + g ^ 2 * e ^ 2)

/-- Spec §4.1, `lorentzianReal`: with `δ = ek² − e²`, `fk·ek²·δ / (δ² + gk²·e²)`. -/
def lorentzianReal (e ek fk gk : qreal) : Option qreal :=
  let δ := ek ^ 2 - e ^ 2
  qdiv (fk * ek ^ 2 * δ) (δ ^ 2 + gk ^ 2 * e ^ 2)

/-- Spec §4.1, `lorentzianImag`: with the same `δ`, `fk·ek²·gk·e / (gk²·e² + δ²)`. -/
def lorentzianImag (e ek fk gk : qreal) : Option qreal :=
  let δ := ek ^ 2 - e ^ 2
  qdiv (fk * ek ^ 2 * gk * e) (gk ^ 2 * e ^ 2 + δ ^ 2)

/-! ## Lemmas on the arithmetic -/

theorem qadd_none_left (b : Option qreal) : qadd none b = none := rfl

theorem qadd_none_right (a : Option qreal) : qadd a none = none := by
  cases a <;> rfl

theorem qadd_some (x y : qreal) : qadd (some x) (some y) = some (x + y) := rfl

theorem qadd_zero (a : Option qreal) : qadd a (some 0) = a := by
  cases a with
  | none => rfl
  | some x => simp [qadd]

theorem qadd_comm (a b : Option qreal) : qadd a b = qadd b a := by
  cases a <;> cases b <;> simp [qadd, add_comm]

theorem qadd_assoc (a b c : Option qreal) : qadd (qadd a b) c = qadd a (qadd b c) := by
  cases a <;> cases b <;> cases c <;> simp [qadd, add_assoc]

theorem qdiv_of_ne {a b : qreal} (h : b ≠ 0) : qdiv a b = some (a / b) := by
  simp [qdiv, h]

theorem qdiv_zero_right (a : qreal) : qdiv a 0 = none := by
  simp [qdiv]

/-- The loop `som += term` from any start value is the start value plus the sum of the
terms. -/
theorem foldl_qadd_eq (f : Laurentian → Option qreal) (l : List Laurentian)
    (init : Option qreal) :
    l.foldl (fun som t => qadd som (f t)) init = qadd init (qsum (l.map f)) := by
  induction l generalizing init with
  | nil => simp [qsum, qadd_zero]
  | cons t ts ih =>
    simp only [List.foldl_cons, List.map_cons]
    rw [ih, qadd_assoc]
    rfl

theorem zero_qadd (a : Option qreal) : qadd (some 0) a = a := by
  cases a with
  | none => rfl
  | some x => simp [qadd]

theorem qadd_left_comm (a b c : Option qreal) : qadd a (qadd b c) = qadd b (qadd a c) := by
  rw [← qadd_assoc, qadd_comm a b, qadd_assoc]

theorem qadd_eq_some {a b : Option qreal} {v : qreal} :
    qadd a b = some v ↔ ∃ x y, a = some x ∧ b = some y ∧ x + y = v := by
  cases a <;> cases b <;> simp [qadd]

theorem qdiv_eq_some {a b v : qreal} : qdiv a b = some v ↔ b ≠ 0 ∧ a / b = v := by
  unfold qdiv
  split_ifs with h <;> simp [h]

theorem qdiv_eq_none {a b : qreal} : qdiv a b = none ↔ b = 0 := by
  unfold qdiv
  split_ifs with h <;> simp [h]

theorem qsum_nil : qsum [] = some 0 := rfl

theorem qsum_cons (a : Option qreal) (l : List (Option qreal)) :
    qsum (a :: l) = qadd a (qsum l) := rfl

theorem qsum_append (l₁ l₂ : List (Option qreal)) :
    qsum (l₁ ++ l₂) = qadd (qsum l₁) (qsum l₂) := by
  induction l₁ with
  | nil => simp [qsum_nil, zero_qadd]
  | cons a l ih => simp [qsum_cons, ih, qadd_assoc]

/-- The sum of a list does not depend on the order of its entries. -/
theorem qsum_perm {l₁ l₂ : List (Option qreal)} (h : l₁.Perm l₂) : qsum l₁ = qsum l₂ := by
  induction h with
  | nil => rfl
  | cons a _ ih => simp [qsum_cons, ih]
  | swap a b l => simp only [qsum_cons]; exact qadd_left_comm b a (qsum l)
  | trans _ _ ih₁ ih₂ => exact ih₁.trans ih₂

/-- A sum is finite exactly when every entry is. -/
theorem qsum_ne_none {l : List (Option qreal)} : qsum l ≠ none ↔ ∀ a ∈ l, a ≠ none := by
  induction l with
  | nil => simp [qsum_nil]
  | cons a l ih =>
    rw [qsum_cons, List.forall_mem_cons, ← ih]
    cases a <;> cases h : qsum l <;> simp [qadd]

theorem realLaurentianDivisor_eq (e ek gk : qreal) :
    realLaurentianDivisor e ek gk = (ek ^ 2 - e ^ 2) ^ 2 + gk ^ 2 * e ^ 2 := by
  simp only [realLaurentianDivisor]; ring

theorem imagLaurentianDivisor_eq (e ek gk : qreal) :
    imagLaurentianDivisor e ek gk = realLaurentianDivisor e ek gk := by
  simp only [realLaurentianDivisor, imagLaurentianDivisor]; ring

theorem mathRealLaurentian_eq_qdiv (e ek fk gk : qreal) :
    mathRealLaurentian e ek fk gk =
      qdiv (fk * (ek * ek) * (ek * ek - e * e)) (realLaurentianDivisor e ek gk) := rfl

theorem mathImagLaurentian_eq_qdiv (e ek fk gk : qreal) :
    mathImagLaurentian e ek fk gk =
      qdiv (fk * (ek * ek) * gk * e) (imagLaurentianDivisor e ek gk) := rfl

theorem realLaurentianDivisor_nonneg (e ek gk : qreal) : 0 ≤ realLaurentianDivisor e ek gk := by
  rw [realLaurentianDivisor_eq]; positivity

/-- The divisor of a Lorentzian term vanishes exactly when `ek² = e²` and `gk·e = 0`. -/
theorem realLaurentianDivisor_eq_zero (e ek gk : qreal) :
    realLaurentianDivisor e ek gk = 0 ↔ ek ^ 2 = e ^ 2 ∧ (gk = 0 ∨ e = 0) := by
  rw [realLaurentianDivisor_eq]
  constructor
  · intro h
    have h1 : 0 ≤ (ek ^ 2 - e ^ 2) ^ 2 := by positivity
    have h2 : 0 ≤ gk ^ 2 * e ^ 2 := by positivity
    have h3 : (ek ^ 2 - e ^ 2) ^ 2 = 0 := by linarith
    have h4 : gk ^ 2 * e ^ 2 = 0 := by linarith
    refine ⟨?_, ?_⟩
    · have := pow_eq_zero_iff (two_ne_zero) |>.mp h3
      linarith
    · rcases mul_eq_zero.mp h4 with h | h
      · exact Or.inl (pow_eq_zero_iff (two_ne_zero) |>.mp h)
      · exact Or.inr (pow_eq_zero_iff (two_ne_zero) |>.mp h)
  · rintro ⟨h1, h2 | h2⟩
    · rw [h1, h2]; ring
    · rw [h2] at h1 ⊢
      rw [h1]; ring

/-- The divisor of `mathImagDrud` is non-zero exactly when `e` is. -/
theorem imagDrudDivisor_ne_zero (e g : qreal) :
    e * e * (e * e) + g * g * (e * e) ≠ 0 ↔ e ≠ 0 := by
  constructor
  · rintro h rfl
    exact h (by ring)
  · intro he
    have h1 : 0 < e * e := mul_self_pos.mpr he
    have h2 : 0 ≤ g * g := mul_self_nonneg g
    have : 0 < e * e * (e * e) + g * g * (e * e) := by positivity
    exact this.ne'

/-- Where the imaginary Drude term is finite, so is the real one. -/
theorem mathRealDrud_ne_none_of_imag {e ep g : qreal} (einf : qreal)
    (h : mathImagDrud e ep g ≠ none) : mathRealDrud e einf ep g ≠ none := by
  have he : e ≠ 0 := by
    rw [mathImagDrud, Ne, qdiv_eq_none] at h
    exact (imagDrudDivisor_ne_zero e g).mp h
  have h1 : 0 < e * e := mul_self_pos.mpr he
  have h2 : 0 ≤ g * g := mul_self_nonneg g
  have hd : e * e + g * g ≠ 0 := by positivity
  simp [mathRealDrud, qdiv, hd]

/-- Where the imaginary Lorentzian term is finite, so is the real one (same divisor). -/
theorem mathRealLaurentian_ne_none_of_imag {e ek fk gk : qreal}
    (h : mathImagLaurentian e ek fk gk ≠ none) : mathRealLaurentian e ek fk gk ≠ none := by
  rw [mathImagLaurentian_eq_qdiv, Ne, qdiv_eq_none, imagLaurentianDivisor_eq] at h
  rw [mathRealLaurentian_eq_qdiv, Ne, qdiv_eq_none]
  exact h

theorem qadd_ne_none {a b : Option qreal} : qadd a b ≠ none ↔ a ≠ none ∧ b ≠ none := by
  cases a <;> cases b <;> simp [qadd]

/-- Where the total imaginary permittivity is finite, so is the total real one. -/
theorem mathRealFun_ne_none_of_imag {e : qreal} {p : Parameters}
    (h : mathImagFun e p ≠ none) : mathRealFun e p ≠ none := by
  rw [mathImagFun, foldl_qadd_eq, qadd_ne_none, qsum_ne_none] at h
  rw [mathRealFun, foldl_qadd_eq, qadd_ne_none, qsum_ne_none]
  refine ⟨mathRealDrud_ne_none_of_imag _ h.1, ?_⟩
  intro a ha
  obtain ⟨t, ht, rfl⟩ := List.mem_map.mp ha
  exact mathRealLaurentian_ne_none_of_imag (h.2 _ (List.mem_map.mpr ⟨t, ht, rfl⟩))

theorem mathRealDrud_of_ne {e g : qreal} (einf ep : qreal) (h : realDrudDivisor e g ≠ 0) :
    mathRealDrud e einf ep g = some (einf - ep * ep / (e * e + g * g)) := by
  have h' : e * e + g * g ≠ 0 := h
  simp [mathRealDrud, qdiv, h']

theorem mathImagDrud_eq_qdiv (e ep g : qreal) :
    mathImagDrud e ep g = qdiv (ep * ep * g * e) (imagDrudDivisor e g) := rfl

theorem realDrudDivisor_ge (e g : qreal) : g * g ≤ realDrudDivisor e g := by
  have : 0 ≤ e * e := mul_self_nonneg e
  simp only [realDrudDivisor]; linarith

theorem imagDrudDivisor_pos {e : qreal} (g : qreal) (he : e ≠ 0) : 0 < imagDrudDivisor e g := by
  have h1 : 0 < e * e := mul_self_pos.mpr he
  have h2 : 0 ≤ g * g := mul_self_nonneg g
  simp only [imagDrudDivisor]; positivity

/-- With `fk`, `gk`, `e` non-negative and a non-zero divisor, the imaginary Lorentzian term
is finite and non-negative. -/
theorem mathImagLaurentian_nonneg {e fk gk : qreal} (ek : qreal) (hfk : 0 ≤ fk)
    (hgk : 0 ≤ gk) (he : 0 ≤ e) (hd : imagLaurentianDivisor e ek gk ≠ 0) :
    ∃ v : qreal, mathImagLaurentian e ek fk gk = some v ∧ 0 ≤ v := by
  refine ⟨_, by rw [mathImagLaurentian_eq_qdiv, qdiv_of_ne hd], ?_⟩
  have h1 : 0 ≤ ek * ek := mul_self_nonneg ek
  have h2 : 0 ≤ imagLaurentianDivisor e ek gk := by
    rw [imagLaurentianDivisor_eq]; exact realLaurentianDivisor_nonneg e ek gk
  exact div_nonneg (by positivity) h2

theorem qneg_qadd (a b : Option qreal) : qadd (qneg a) (qneg b) = qneg (qadd a b) := by
  cases a <;> cases b <;> simp [qadd, qneg, add_comm]

theorem qdiv_neg_left (a b : qreal) : qdiv (-a) b = qneg (qdiv a b) := by
  unfold qdiv
  split_ifs with h
  · rfl
  · simp [qneg, neg_div]

theorem qsum_map_qneg (l : List (Option qreal)) : qsum (l.map qneg) = qneg (qsum l) := by
  induction l with
  | nil => simp [qsum_nil, qneg]
  | cons a l ih => rw [List.map_cons, qsum_cons, qsum_cons, ih, qneg_qadd]

theorem mathRealDrud_neg (e einf ep g : qreal) :
    mathRealDrud (-e) einf ep g = mathRealDrud e einf ep g := by
  simp only [mathRealDrud, neg_mul_neg]

theorem mathRealLaurentian_neg (e ek fk gk : qreal) :
    mathRealLaurentian (-e) ek fk gk = mathRealLaurentian e ek fk gk := by
  simp only [mathRealLaurentian, neg_mul_neg]

theorem mathImagDrud_neg (e ep g : qreal) :
    mathImagDrud (-e) ep g = qneg (mathImagDrud e ep g) := by
  simp only [mathImagDrud]
  rw [show -e * -e = e * e by ring, show ep * ep * g * -e = -(ep * ep * g * e) by ring]
  exact qdiv_neg_left _ _

theorem mathImagLaurentian_neg (e ek fk gk : qreal) :
    mathImagLaurentian (-e) ek fk gk = qneg (mathImagLaurentian e ek fk gk) := by
  simp only [mathImagLaurentian]
  rw [show -e * -e = e * e by ring,
    show fk * (ek * ek) * gk * -e = -(fk * (ek * ek) * gk * e) by ring]
  exact qdiv_neg_left _ _

/-! ## Claims -/

/-- C1: for every energy `e` and every parameter set `p` (any number of Lorentzian terms),
`mathRealFun e p` is `mathRealDrud` plus the sum over the terms of `mathRealLaurentian`, and
`mathImagFun e p` is `mathImagDrud` plus the sum over the terms of `mathImagLaurentian`. -/
theorem mathFun_superposition (e : qreal) (p : Parameters) :
    mathRealFun e p =
        qadd (mathRealDrud e p.einf p.ep p.g)
          (qsum (p.laurentians.map fun t => mathRealLaurentian e t.ek t.fk t.gk)) ∧
      mathImagFun e p =
        qadd (mathImagDrud e p.ep p.g)
          (qsum (p.laurentians.map fun t => mathImagLaurentian e t.ek t.fk t.gk)) :=
  ⟨foldl_qadd_eq _ _ _, foldl_qadd_eq _ _ _⟩

/-- C2: for every `e`, `einf`, `ep`, `g`, `mathRealDrud` is the spec's
`einf − ep² / (e² + g²)` and `mathImagDrud` is the spec's `ep²·g·e / (e⁴ + g²·e²)`. -/
theorem mathDrud_eq_spec (e einf ep g : qreal) :
    mathRealDrud e einf ep g = drudeReal e einf ep g ∧
      mathImagDrud e ep g = drudeImag e ep g := by
  constructor
  · simp only [mathRealDrud, drudeReal]
    rw [show ep * ep = ep ^ 2 by ring, show e * e + g * g = e ^ 2 + g ^ 2 by ring]
  · simp only [mathImagDrud, drudeImag]
    rw [show ep * ep * g * e = ep ^ 2 * g * e by ring,
      show e * e * (e * e) + g * g * (e * e) = e ^ 4 + g ^ 2 * e ^ 2 by ring]

/-- C3: for every `e`, `ek`, `fk`, `gk`, with `δ = ek² − e²`, `mathRealLaurentian` is the
spec's `fk·ek²·δ / (δ² + gk²·e²)` and `mathImagLaurentian` is the spec's
`fk·ek²·gk·e / (gk²·e² + δ²)`, and the divisors of the two source functions are the same
number. -/
theorem mathLaurentian_eq_spec (e ek fk gk : qreal) :
    mathRealLaurentian e ek fk gk = lorentzianReal e ek fk gk ∧
      mathImagLaurentian e ek fk gk = lorentzianImag e ek fk gk ∧
      realLaurentianDivisor e ek gk = imagLaurentianDivisor e ek gk := by
  refine ⟨?_, ?_, (imagLaurentianDivisor_eq e ek gk).symm⟩
  · simp only [mathRealLaurentian, lorentzianReal]
    rw [show fk * (ek * ek) * (ek * ek - e * e) = fk * ek ^ 2 * (ek ^ 2 - e ^ 2) by ring,
      show (ek * ek - e * e) * (ek * ek - e * e) + gk * gk * (e * e)
        = (ek ^ 2 - e ^ 2) ^ 2 + gk ^ 2 * e ^ 2 by ring]
  · simp only [mathImagLaurentian, lorentzianImag]
    rw [show fk * (ek * ek) * gk * e = fk * ek ^ 2 * gk * e by ring,
      show gk * gk * (e * e) + (ek * ek - e * e) * (ek * ek - e * e)
        = gk ^ 2 * e ^ 2 + (ek ^ 2 - e ^ 2) ^ 2 by ring]

/-- C4: for every `e` and `p`, with the simulator injected, `mathReflectivity` adds exactly
one call to the record of simulator calls, with cosIncidence `1`, wavelength `1240 / e`,
polarization angle `M_PI_4`, incident index `1`, exit index the conjugate of the square root
of `mathRealFun e p + i · mathImagFun e p`, and no layers; and it returns the value the
simulator stores for that call. -/
theorem mathReflectivity_simulate_call {Layer : Type}
    (simulate : SimulateArgs Layer → Option qreal) (csqrt : Cplx → Cplx) (M_PI_4 e : qreal)
    (p : Parameters) (calls : List (SimulateArgs Layer)) :
    mathReflectivity simulate csqrt M_PI_4 e p calls =
      (simulate ⟨1, qdiv 1240 e, M_PI_4, 1,
          (csqrt ⟨mathRealFun e p, mathImagFun e p⟩).conj, []⟩,
        calls ++ [⟨1, qdiv 1240 e, M_PI_4, 1,
          (csqrt ⟨mathRealFun e p, mathImagFun e p⟩).conj, []⟩]) :=
  rfl

/-- C5 as stated fails: at `ek = 0` (with `fk = 1`, `gk = 1`) the divisor is zero and
`mathRealLaurentian 0 0 1 1` is the non-finite `0 / 0`, not `0`. -/
theorem mathRealLaurentian_resonance_counterexample :
    mathRealLaurentian 0 0 1 1 = none ∧ mathRealLaurentian 0 0 1 1 ≠ some 0 := by
  have h : mathRealLaurentian 0 0 1 1 = none := by
    simp [mathRealLaurentian, qdiv]
  exact ⟨h, by rw [h]; simp⟩

/-- C5 (amended): in exact arithmetic, for every `fk` and every `ek ≠ 0`, `gk ≠ 0`,
`mathRealLaurentian ek ek fk gk` is exactly `0`. -/
theorem mathRealLaurentian_resonance (ek fk gk : qreal) (hek : ek ≠ 0) (hgk : gk ≠ 0) :
    mathRealLaurentian ek ek fk gk = some 0 := by
  have hd : realLaurentianDivisor ek ek gk ≠ 0 := by
    intro h
    rcases (realLaurentianDivisor_eq_zero ek ek gk).mp h with ⟨_, h | h⟩
    · exact hgk h
    · exact hek h
  rw [mathRealLaurentian_eq_qdiv, qdiv_of_ne hd]
  simp

/-- C5 (amended), at `ek = 2`, `fk = 1`, `gk = 1/10`. -/
theorem mathRealLaurentian_resonance_witness :
    mathRealLaurentian 2 2 1 (1 / 10) = some 0 :=
  mathRealLaurentian_resonance 2 1 (1 / 10) (by norm_num) (by norm_num)

/-- C6 as stated fails: with `gk = 1 ≠ 0` and `e = ek = 0` the divisor is `0`; and with
`e = 1 ≠ ek = -1` and `gk = 0` the divisor is `0` as well. -/
theorem realLaurentianDivisor_pos_counterexample :
    ((1 : qreal) ≠ 0 ∧ ¬ 0 < realLaurentianDivisor 0 0 1) ∧
      ((1 : qreal) ≠ -1 ∧ ¬ 0 < realLaurentianDivisor 1 (-1) 0) := by
  refine ⟨⟨by norm_num, ?_⟩, ⟨by norm_num, ?_⟩⟩ <;> norm_num [realLaurentianDivisor]

/-- C6 (amended): in exact arithmetic, the divisor `δ² + gk²·e²` that `mathRealLaurentian`
divides by
(`δ = ek² − e²`) is strictly positive exactly when (`gk ≠ 0` and `e ≠ 0`) or
(`e ≠ ek` and `e ≠ −ek`); it is never negative. -/
theorem realLaurentianDivisor_pos_iff (e ek fk gk : qreal) :
    mathRealLaurentian e ek fk gk =
        qdiv (fk * (ek * ek) * (ek * ek - e * e)) (realLaurentianDivisor e ek gk) ∧
      realLaurentianDivisor e ek gk = (ek ^ 2 - e ^ 2) ^ 2 + gk ^ 2 * e ^ 2 ∧
      0 ≤ realLaurentianDivisor e ek gk ∧
      (0 < realLaurentianDivisor e ek gk ↔ (gk ≠ 0 ∧ e ≠ 0) ∨ (e ≠ ek ∧ e ≠ -ek)) := by
  refine ⟨rfl, realLaurentianDivisor_eq e ek gk, realLaurentianDivisor_nonneg e ek gk, ?_⟩
  have hsq : ek ^ 2 = e ^ 2 ↔ ¬ (e ≠ ek ∧ e ≠ -ek) := by
    rw [sq_eq_sq_iff_eq_or_eq_neg]
    constructor
    · rintro (h | h) ⟨h1, h2⟩
      · exact h1 h.symm
      · exact h2 (by rw [h]; ring)
    · intro h
      by_cases h1 : e = ek
      · exact Or.inl h1.symm
      · by_cases h2 : e = -ek
        · exact Or.inr (by rw [h2]; ring)
        · exact absurd ⟨h1, h2⟩ h
  rw [lt_iff_le_and_ne, Ne, eq_comm, realLaurentianDivisor_eq_zero, hsq]
  constructor
  · rintro ⟨_, h⟩
    by_contra hc
    push_neg at hc
    apply h
    refine ⟨fun hh => ?_, ?_⟩
    · exact absurd (hc.2 hh.1) hh.2
    · by_cases hg : gk = 0
      · exact Or.inl hg
      · exact Or.inr (hc.1 hg)
  · intro h
    refine ⟨realLaurentianDivisor_nonneg e ek gk, ?_⟩
    rintro ⟨h1, h2⟩
    rcases h with h | h
    · rcases h2 with h2 | h2
      · exact h.1 h2
      · exact h.2 h2
    · exact h1 h

/-- C7 as stated fails: at `e = 0`, adding the term `(ek, fk, gk) = (0, 0, 1)` to the
parameter set `einf = 1, ep = 0, g = 1` without terms turns `mathRealFun` from the finite
`1` into a non-finite value (the added term is `0 / 0`). -/
theorem mathFun_add_null_term_counterexample :
    (⟨0, 0, 1⟩ : Laurentian).fk = 0 ∧
      mathRealFun 0 ⟨1, 0, 1, []⟩ = some 1 ∧
      mathRealFun 0 ⟨1, 0, 1, [⟨0, 0, 1⟩]⟩ = none ∧
      mathRealFun 0 ⟨1, 0, 1, [⟨0, 0, 1⟩]⟩ ≠ mathRealFun 0 ⟨1, 0, 1, []⟩ := by
  have h1 : mathRealFun 0 ⟨1, 0, 1, []⟩ = some 1 := by
    simp [mathRealFun, mathRealDrud, qdiv]
  have h2 : mathRealFun 0 ⟨1, 0, 1, [⟨0, 0, 1⟩]⟩ = none := by
    simp [mathRealFun, mathRealDrud, mathRealLaurentian, qdiv, qadd]
  exact ⟨rfl, h1, h2, by rw [h1, h2]; simp⟩

/-- C7 (amended): in exact arithmetic, for every parameter set, every energy `e` and every
Lorentzian term `t`
with `fk = 0` whose divisor `(ek² − e²)² + gk²·e²` is not zero at `e`, adding `t` to the
terms at any position (between `l₁` and `l₂`) leaves `mathRealFun` and `mathImagFun`
unchanged. -/
theorem mathFun_add_null_term (e einf ep g : qreal) (l₁ l₂ : List Laurentian) (t : Laurentian)
    (hfk : t.fk = 0) (hden : (t.ek ^ 2 - e ^ 2) ^ 2 + t.gk ^ 2 * e ^ 2 ≠ 0) :
    mathRealFun e ⟨einf, ep, g, l₁ ++ t :: l₂⟩ = mathRealFun e ⟨einf, ep, g, l₁ ++ l₂⟩ ∧
      mathImagFun e ⟨einf, ep, g, l₁ ++ t :: l₂⟩ = mathImagFun e ⟨einf, ep, g, l₁ ++ l₂⟩ := by
  have hd : realLaurentianDivisor e t.ek t.gk ≠ 0 := by
    rw [realLaurentianDivisor_eq]; exact hden
  have hr : mathRealLaurentian e t.ek t.fk t.gk = some 0 := by
    rw [mathRealLaurentian_eq_qdiv, qdiv_of_ne hd, hfk]; simp
  have hi : mathImagLaurentian e t.ek t.fk t.gk = some 0 := by
    rw [mathImagLaurentian_eq_qdiv, imagLaurentianDivisor_eq, qdiv_of_ne hd, hfk]; simp
  constructor
  · simp only [mathRealFun, foldl_qadd_eq, List.map_append, List.map_cons, qsum_append,
      qsum_cons, hr, zero_qadd]
  · simp only [mathImagFun, foldl_qadd_eq, List.map_append, List.map_cons, qsum_append,
      qsum_cons, hi, zero_qadd]

/-- C7 (amended), at `e = 2`: the term `(3, 0, 1)` added between the terms `(1, 4, 1)` and
`(2, 1, 1/10)`. -/
theorem mathFun_add_null_term_witness :
    mathRealFun 2 ⟨1, 1, 1, [⟨1, 4, 1⟩] ++ ⟨3, 0, 1⟩ :: [⟨2, 1, 1 / 10⟩]⟩ =
        mathRealFun 2 ⟨1, 1, 1, [⟨1, 4, 1⟩] ++ [⟨2, 1, 1 / 10⟩]⟩ ∧
      mathImagFun 2 ⟨1, 1, 1, [⟨1, 4, 1⟩] ++ ⟨3, 0, 1⟩ :: [⟨2, 1, 1 / 10⟩]⟩ =
        mathImagFun 2 ⟨1, 1, 1, [⟨1, 4, 1⟩] ++ [⟨2, 1, 1 / 10⟩]⟩ :=
  mathFun_add_null_term 2 1 1 1 [⟨1, 4, 1⟩] [⟨2, 1, 1 / 10⟩] ⟨3, 0, 1⟩ rfl (by norm_num)

/-- C8: for every `ep`, `g` and every `e ≠ 0`, `mathImagDrud e ep g` is a finite value `v`
and `mathImagDrud (-e) ep g` is `-v`. -/
theorem mathImagDrud_odd (e ep g : qreal) (he : e ≠ 0) :
    ∃ v : qreal, mathImagDrud e ep g = some v ∧ mathImagDrud (-e) ep g = some (-v) ∧
      mathImagDrud (-e) ep g = qneg (mathImagDrud e ep g) := by
  have hd : e * e * (e * e) + g * g * (e * e) ≠ 0 := (imagDrudDivisor_ne_zero e g).mpr he
  have hd' : -e * -e * (-e * -e) + g * g * (-e * -e) ≠ 0 := by
    rw [show -e * -e = e * e by ring]; exact hd
  have h1 : mathImagDrud e ep g
      = some (ep * ep * g * e / (e * e * (e * e) + g * g * (e * e))) := by
    simp only [mathImagDrud]; exact qdiv_of_ne hd
  have h2 : mathImagDrud (-e) ep g
      = some (-(ep * ep * g * e / (e * e * (e * e) + g * g * (e * e)))) := by
    simp only [mathImagDrud]
    rw [qdiv_of_ne hd', show -e * -e = e * e by ring, ← neg_div]
    congr 2; ring
  exact ⟨_, h1, h2, by rw [h1, h2]; rfl⟩

/-- C8, at `e = 2`, `ep = 3`, `g = 5`. -/
theorem mathImagDrud_odd_witness :
    ∃ v : qreal, mathImagDrud 2 3 5 = some v ∧ mathImagDrud (-2) 3 5 = some (-v) ∧
      mathImagDrud (-2) 3 5 = qneg (mathImagDrud 2 3 5) :=
  mathImagDrud_odd 2 3 5 (by norm_num)

/-- C10: for every parameter set and every `e`, `mathRealFun` and `mathImagFun` are
unchanged by any permutation of the Lorentzian terms. -/
theorem mathFun_perm (e einf ep g : qreal) (l₁ l₂ : List Laurentian) (h : l₁.Perm l₂) :
    mathRealFun e ⟨einf, ep, g, l₁⟩ = mathRealFun e ⟨einf, ep, g, l₂⟩ ∧
      mathImagFun e ⟨einf, ep, g, l₁⟩ = mathImagFun e ⟨einf, ep, g, l₂⟩ := by
  constructor
  · simp only [mathRealFun, foldl_qadd_eq]
    rw [qsum_perm (h.map _)]
  · simp only [mathImagFun, foldl_qadd_eq]
    rw [qsum_perm (h.map _)]

/-- C10, at `e = 2`: the terms `(1, 4, 1)` and `(2, 1, 1/10)` exchanged in front of
`(3, 2, 1)`. -/
theorem mathFun_perm_witness :
    mathRealFun 2 ⟨1, 1, 1, [⟨2, 1, 1 / 10⟩, ⟨1, 4, 1⟩, ⟨3, 2, 1⟩]⟩ =
        mathRealFun 2 ⟨1, 1, 1, [⟨1, 4, 1⟩, ⟨2, 1, 1 / 10⟩, ⟨3, 2, 1⟩]⟩ ∧
      mathImagFun 2 ⟨1, 1, 1, [⟨2, 1, 1 / 10⟩, ⟨1, 4, 1⟩, ⟨3, 2, 1⟩]⟩ =
        mathImagFun 2 ⟨1, 1, 1, [⟨1, 4, 1⟩, ⟨2, 1, 1 / 10⟩, ⟨3, 2, 1⟩]⟩ :=
  mathFun_perm 2 1 1 1 _ _ (List.Perm.swap (⟨1, 4, 1⟩ : Laurentian) ⟨2, 1, 1 / 10⟩ [⟨3, 2, 1⟩])

/-- C12 as stated fails: at `e = 0`, `ek = 0`, `fk = 1`, `gk = 1` (all `≥ 0`) the divisor is
zero and `mathImagLaurentian` is the non-finite `0 / 0`, which is not `≥ 0`. -/
theorem mathImagLaurentian_nonneg_counterexample :
    mathImagLaurentian 0 0 1 1 = none ∧
      ¬ ∃ v : qreal, mathImagLaurentian 0 0 1 1 = some v ∧ 0 ≤ v := by
  have h : mathImagLaurentian 0 0 1 1 = none := by
    simp [mathImagLaurentian, qdiv]
  exact ⟨h, by rw [h]; simp⟩

/-- C12 (amended): in exact arithmetic, for every `ek` and every `fk ≥ 0`, `gk ≥ 0`, `e ≥ 0`
at which the divisor
`gk²·e² + (ek² − e²)²` is not zero, `mathImagLaurentian e ek fk gk` is finite and `≥ 0`. -/
theorem mathImagLaurentian_nonneg_of_divisor (e ek fk gk : qreal) (hfk : 0 ≤ fk)
    (hgk : 0 ≤ gk) (he : 0 ≤ e) (hden : gk ^ 2 * e ^ 2 + (ek ^ 2 - e ^ 2) ^ 2 ≠ 0) :
    ∃ v : qreal, mathImagLaurentian e ek fk gk = some v ∧ 0 ≤ v := by
  apply mathImagLaurentian_nonneg ek hfk hgk he
  rw [imagLaurentianDivisor_eq, realLaurentianDivisor_eq]
  intro h
  exact hden (by rw [← h]; ring)

/-- C12 (amended), at `e = 1/2`, `ek = 2`, `fk = 1`, `gk = 1/10`. -/
theorem mathImagLaurentian_nonneg_of_divisor_witness :
    ∃ v : qreal, mathImagLaurentian (1 / 2) 2 1 (1 / 10) = some v ∧ 0 ≤ v :=
  mathImagLaurentian_nonneg_of_divisor (1 / 2) 2 1 (1 / 10) (by norm_num) (by norm_num)
    (by norm_num) (by norm_num)

/-- C14: for `einf = 1`, `ep = 0`, `g = 1` and the one term `(ek, fk, gk) = (2, 1, 1/10)`,
`mathImagFun 2 p` is `20 = fk·ek/gk`, `mathImagFun (1/2) p` is `40/2813`, and the first is
strictly greater. -/
theorem mathImagFun_peak_scenario :
    mathImagFun 2 ⟨1, 0, 1, [⟨2, 1, 1 / 10⟩]⟩ = some 20 ∧
      (20 : qreal) = 1 * 2 / (1 / 10) ∧
      mathImagFun (1 / 2) ⟨1, 0, 1, [⟨2, 1, 1 / 10⟩]⟩ = some (40 / 2813) ∧
      (40 / 2813 : qreal) < 20 := by
  refine ⟨?_, by norm_num, ?_, by norm_num⟩
  · norm_num [mathImagFun, mathImagDrud, mathImagLaurentian, qdiv, qadd]
  · norm_num [mathImagFun, mathImagDrud, mathImagLaurentian, qdiv, qadd]

/-- C15 as stated fails: with `ep = 0` and no term, at `e = 0` (`einf = 1`, `g = 1`)
`mathImagFun` is the non-finite `0 / 0`, not `0`; and at `e = 0`, `g = 0` `mathRealFun` is
non-finite as well, not `einf`. -/
theorem mathFun_constant_counterexample :
    mathImagFun 0 ⟨1, 0, 1, []⟩ = none ∧ mathImagFun 0 ⟨1, 0, 1, []⟩ ≠ some 0 ∧
      mathRealFun 0 ⟨1, 0, 0, []⟩ = none ∧ mathRealFun 0 ⟨1, 0, 0, []⟩ ≠ some 1 := by
  have h1 : mathImagFun 0 ⟨1, 0, 1, []⟩ = none := by
    simp [mathImagFun, mathImagDrud, qdiv]
  have h2 : mathRealFun 0 ⟨1, 0, 0, []⟩ = none := by
    simp [mathRealFun, mathRealDrud, qdiv]
  exact ⟨h1, by rw [h1]; simp, h2, by rw [h2]; simp⟩

/-- C15 (amended): in exact arithmetic, for every parameter set with `ep = 0` and no
Lorentzian term and every `g`, `mathRealFun e p = einf` at every `e` with `e ≠ 0` or `g ≠ 0`,
and `mathImagFun e p = 0` at every `e ≠ 0`; in particular for `einf = 1`, `g = 1`, `e = 1` the
permittivity is `ε1 = 1`, `ε2 = 0` and, `std::sqrt` mapping `1 + 0·i` to `1 + 0·i`, the exit
index passed to the simulator is `1 + 0·i`, the incident index being `1` as well. -/
theorem mathFun_constant {Layer : Type} (simulate : SimulateArgs Layer → Option qreal)
    (csqrt : Cplx → Cplx) (M_PI_4 : qreal) (calls : List (SimulateArgs Layer))
    (hsqrt : csqrt ⟨some 1, some 0⟩ = ⟨some 1, some 0⟩) :
    (∀ e einf g : qreal, e ≠ 0 ∨ g ≠ 0 → mathRealFun e ⟨einf, 0, g, []⟩ = some einf) ∧
      (∀ e einf g : qreal, e ≠ 0 → mathImagFun e ⟨einf, 0, g, []⟩ = some 0) ∧
      mathRealFun 1 ⟨1, 0, 1, []⟩ = some 1 ∧
      mathImagFun 1 ⟨1, 0, 1, []⟩ = some 0 ∧
      (mathReflectivity simulate csqrt M_PI_4 1 ⟨1, 0, 1, []⟩ calls).2 =
        calls ++ [⟨1, qdiv 1240 1, M_PI_4, 1, ⟨some 1, some 0⟩, []⟩] := by
  have hre : ∀ e einf g : qreal, e ≠ 0 ∨ g ≠ 0 →
      mathRealFun e ⟨einf, 0, g, []⟩ = some einf := by
    intro e einf g h
    have hd : realDrudDivisor e g ≠ 0 := by
      have h1 : 0 ≤ e * e := mul_self_nonneg e
      have h2 : 0 ≤ g * g := mul_self_nonneg g
      have : 0 < e * e + g * g := by
        rcases h with h | h
        · have := mul_self_pos.mpr h; linarith
        · have := mul_self_pos.mpr h; linarith
      exact this.ne'
    simp only [mathRealFun, List.foldl_nil]
    rw [mathRealDrud_of_ne einf 0 hd]
    simp
  have him : ∀ e einf g : qreal, e ≠ 0 → mathImagFun e ⟨einf, 0, g, []⟩ = some 0 := by
    intro e einf g h
    simp only [mathImagFun, List.foldl_nil]
    rw [mathImagDrud_eq_qdiv, qdiv_of_ne (imagDrudDivisor_pos g h).ne']
    simp
  have h1 := hre 1 1 1 (Or.inl one_ne_zero)
  have h2 := him 1 1 1 one_ne_zero
  refine ⟨hre, him, h1, h2, ?_⟩
  simp only [mathReflectivity, h1, h2, hsqrt, Cplx.conj, qneg]
  simp

/-- C15 (amended), with a square root that returns `1 + 0·i`. -/
theorem mathFun_constant_witness :
    (∀ e einf g : qreal, e ≠ 0 ∨ g ≠ 0 → mathRealFun e ⟨einf, 0, g, []⟩ = some einf) ∧
      (∀ e einf g : qreal, e ≠ 0 → mathImagFun e ⟨einf, 0, g, []⟩ = some 0) ∧
      mathRealFun 1 ⟨1, 0, 1, []⟩ = some 1 ∧
      mathImagFun 1 ⟨1, 0, 1, []⟩ = some 0 ∧
      (mathReflectivity (fun _ : SimulateArgs Unit => some 0) (fun _ => ⟨some 1, some 0⟩)
          (355 / 452) 1 ⟨1, 0, 1, []⟩ []).2 =
        [⟨1, qdiv 1240 1, 355 / 452, 1, ⟨some 1, some 0⟩, []⟩] :=
  mathFun_constant (fun _ : SimulateArgs Unit => some 0) (fun _ => ⟨some 1, some 0⟩)
    (355 / 452) [] rfl

/-- C17: for every parameter set `p` (any number of Lorentzian terms) and every `e`,
`mathRealFun (-e) p = mathRealFun e p` and `mathImagFun (-e) p = -mathImagFun e p`; where one
side is non-finite, so is the other. -/
theorem mathFun_parity (e : qreal) (p : Parameters) :
    mathRealFun (-e) p = mathRealFun e p ∧
      mathImagFun (-e) p = qneg (mathImagFun e p) ∧
      ∀ v : qreal, mathImagFun e p = some v → mathImagFun (-e) p = some (-v) := by
  have him : mathImagFun (-e) p = qneg (mathImagFun e p) := by
    simp only [mathImagFun, foldl_qadd_eq, mathImagDrud_neg, mathImagLaurentian_neg]
    rw [← qneg_qadd, ← qsum_map_qneg, List.map_map]
    rfl
  refine ⟨?_, him, fun v hv => by rw [him, hv]; rfl⟩
  simp only [mathRealFun, mathRealDrud_neg, mathRealLaurentian_neg]

/-- C19: `XYEllipsoFun::domain x` is `false` exactly when `x < 0.1` and `true` otherwise;
every `x` it accepts has `x ≥ 0.1 > 0`, and for such `x` and every `g` the divisor
`x⁴ + g²·x²` of `mathImagDrud` and the divisor `x` of the wavelength `1240 / x` are strictly
positive, so that both quotients are finite. -/
theorem domain_excludes_zero_divisors (x : qreal) :
    (XYEllipsoFun.domain x = false ↔ x < 0.1) ∧
      (XYEllipsoFun.domain x = true ↔ 0.1 ≤ x) ∧
      (XYEllipsoFun.domain x = true → 0 < x ∧
        ∀ ep g : qreal, imagDrudDivisor x g = x ^ 4 + g ^ 2 * x ^ 2 ∧
          0 < imagDrudDivisor x g ∧
          mathImagDrud x ep g = some (ep * ep * g * x / imagDrudDivisor x g) ∧
          qdiv 1240 x = some (1240 / x)) := by
  have hfalse : XYEllipsoFun.domain x = false ↔ x < 0.1 := by
    unfold XYEllipsoFun.domain
    split_ifs with h <;> simp [h]
  have htrue : XYEllipsoFun.domain x = true ↔ 0.1 ≤ x := by
    unfold XYEllipsoFun.domain
    split_ifs with h
    · simp [h]
    · simpa using not_lt.mp h
  refine ⟨hfalse, htrue, fun hx => ?_⟩
  have hx1 : (0.1 : qreal) ≤ x := htrue.mp hx
  have hx0 : 0 < x := lt_of_lt_of_le (by norm_num) hx1
  refine ⟨hx0, fun ep g => ⟨by simp only [imagDrudDivisor]; ring,
    imagDrudDivisor_pos g hx0.ne', ?_, qdiv_of_ne hx0.ne'⟩⟩
  rw [mathImagDrud_eq_qdiv, qdiv_of_ne (imagDrudDivisor_pos g hx0.ne').ne']

/-- C19, at the boundary `x = 0.1`, which is accepted. -/
theorem domain_excludes_zero_divisors_witness :
    0 < (0.1 : qreal) ∧
      ∀ ep g : qreal, imagDrudDivisor 0.1 g = 0.1 ^ 4 + g ^ 2 * 0.1 ^ 2 ∧
        0 < imagDrudDivisor 0.1 g ∧
        mathImagDrud 0.1 ep g = some (ep * ep * g * 0.1 / imagDrudDivisor 0.1 g) ∧
        qdiv 1240 0.1 = some (1240 / 0.1) :=
  (domain_excludes_zero_divisors 0.1).2.2 (by simp [XYEllipsoFun.domain])

/-- C20: for every parameter set `p`, every `x` and every index `n`, after `setNo n` the two
curves read the `n`-th term when `0 ≤ n < p.laurentians.size()`, and then
`XYRealLaurentian::y x` is `mathRealLaurentian x ek fk gk` and `XYImagLaurentian::y x` is
`mathImagLaurentian x ek fk gk` of that term; `setNo` stores `n` unchecked, so outside the
bound the index read is out of range; a freshly constructed curve has `no = 0`, which is out
of range when `p.laurentians` is empty. -/
theorem laurentian_curve_index (p : Parameters) (n : Int) (x : qreal) :
    ((XYRealLaurentian.new p).setNo n).no = n ∧
      ((XYImagLaurentian.new p).setNo n).no = n ∧
      (0 ≤ n → n < p.laurentians.length →
        ∃ t, p.laurentians[n.toNat]? = some t ∧
          ((XYRealLaurentian.new p).setNo n).y x =
            YResult.value (mathRealLaurentian x t.ek t.fk t.gk) ∧
          ((XYImagLaurentian.new p).setNo n).y x =
            YResult.value (mathImagLaurentian x t.ek t.fk t.gk)) ∧
      (¬ (0 ≤ n ∧ n < p.laurentians.length) →
        ((XYRealLaurentian.new p).setNo n).y x = YResult.outOfRange ∧
          ((XYImagLaurentian.new p).setNo n).y x = YResult.outOfRange) ∧
      (XYRealLaurentian.new p).no = 0 ∧ (XYImagLaurentian.new p).no = 0 ∧
      (p.laurentians = [] →
        (XYRealLaurentian.new p).y x = YResult.outOfRange ∧
          (XYImagLaurentian.new p).y x = YResult.outOfRange) := by
  refine ⟨rfl, rfl, ?_, ?_, rfl, rfl, ?_⟩
  · intro h0 hn
    have hlt : n.toNat < p.laurentians.length := by omega
    refine ⟨p.laurentians[n.toNat], List.getElem?_eq_getElem hlt, ?_, ?_⟩
    · simp [XYRealLaurentian.y, XYRealLaurentian.setNo, XYRealLaurentian.new, h0,
        List.getElem?_eq_getElem hlt]
    · simp [XYImagLaurentian.y, XYImagLaurentian.setNo, XYImagLaurentian.new, h0,
        List.getElem?_eq_getElem hlt]
  · intro hb
    by_cases h0 : 0 ≤ n
    · have hge : p.laurentians.length ≤ n.toNat := by
        have : ¬ n < p.laurentians.length := fun h => hb ⟨h0, h⟩
        omega
      simp [XYRealLaurentian.y, XYImagLaurentian.y, XYRealLaurentian.setNo,
        XYImagLaurentian.setNo, XYRealLaurentian.new, XYImagLaurentian.new, h0,
        List.getElem?_eq_none hge]
    · simp [XYRealLaurentian.y, XYImagLaurentian.y, XYRealLaurentian.setNo,
        XYImagLaurentian.setNo, XYRealLaurentian.new, XYImagLaurentian.new, h0]
  · intro hnil
    simp [XYRealLaurentian.y, XYImagLaurentian.y, XYRealLaurentian.new,
      XYImagLaurentian.new, hnil]

/-- C20, at index `1` of the terms `(1, 4, 1)`, `(2, 1, 1/10)` and `x = 3`. -/
theorem laurentian_curve_index_witness :
    ∃ t, ([⟨1, 4, 1⟩, ⟨2, 1, 1 / 10⟩] : List Laurentian)[(1 : Int).toNat]? = some t ∧
      ((XYRealLaurentian.new ⟨1, 0, 1, [⟨1, 4, 1⟩, ⟨2, 1, 1 / 10⟩]⟩).setNo 1).y 3 =
        YResult.value (mathRealLaurentian 3 t.ek t.fk t.gk) ∧
      ((XYImagLaurentian.new ⟨1, 0, 1, [⟨1, 4, 1⟩, ⟨2, 1, 1 / 10⟩]⟩).setNo 1).y 3 =
        YResult.value (mathImagLaurentian 3 t.ek t.fk t.gk) :=
  (laurentian_curve_index ⟨1, 0, 1, [⟨1, 4, 1⟩, ⟨2, 1, 1 / 10⟩]⟩ 1 3).2.2.1 (by norm_num)
    (by simp)

end Ellipsofit
